import Mathlib

/-!
Shallow embedding of `scripts/lsm_to_npz.py` (ConfocalViewer converter).

Conventions of the embedding:
* numpy intensity values are modelled as exact rationals (`ℚ`); the float32
  casts in the source are value-preserving in this model;
* a 2D slice is a row-major list of rows (`List (List ℚ)`), a 3D volume a
  list of slices;
* `scipy.ndimage.gaussian_filter` is an external collaborator of the
  repository and is modelled as an explicit function parameter `gf`;
* a raw numpy array is its shape together with its row-major data buffer;
* Python exceptions raised by `convert_one` are modelled with `Except`.
-/

namespace LsmToNpz

/-- A 2D image slice: list of rows, each row a list of rational intensities. -/
abbrev Slice2 : Type := List (List ℚ)

/-- A 3D volume: list of 2D slices along Z. -/
abbrev Volume : Type := List Slice2

/-- Model of `np.clip(x, lo, hi)` for scalars. -/
def clip (x lo hi : ℚ) : ℚ := min (max x lo) hi

/-- Insert a rational into a list, keeping ascending order. -/
def insertRat (x : ℚ) : List ℚ → List ℚ
  | [] => [x]
  | y :: ys => if x ≤ y then x :: y :: ys else y :: insertRat x ys

/-- Ascending insertion sort, modelling the sort inside `np.percentile`. -/
def sortRat : List ℚ → List ℚ
  | [] => []
  | x :: xs => insertRat x (sortRat xs)

/-- Model of `np.percentile(xs, q)` with the default linear interpolation:
sort the data, take the virtual index `q/100 * (n-1)` and interpolate
linearly between the two neighbouring order statistics (indices clipped to
the valid range). -/
def percentile (xs : List ℚ) (q : ℚ) : ℚ :=
  let s := sortRat xs
  let n := s.length
  let pos : ℚ := q / 100 * ((n : ℚ) - 1)
  let i : ℕ := ⌊pos⌋.toNat
  let lov := s.getD i 0
  let hiv := s.getD (i + 1) lov
  lov + (pos - (i : ℚ)) * (hiv - lov)

/-- Embedding of `normalize(img, lo=0.5, hi=99.5)` from the source:
percentile-based normalization of a 2D slice to `[0,1]`; if the two
percentiles coincide the result is `np.zeros_like(img)`. -/
def normalize (img : Slice2) (lo : ℚ := 0.5) (hi : ℚ := 99.5) : Slice2 :=
  let lo_v := percentile img.flatten lo
  let hi_v := percentile img.flatten hi
  if hi_v = lo_v then img.map (fun row => row.map (fun _ => 0))
  else img.map (fun row => row.map (fun a => clip ((a - lo_v) / (hi_v - lo_v)) 0 1))

/-- Embedding of `subtract_bg(img, sigma=12)` from the source: when
`sigma and sigma > 0` (Python truthiness), subtract the Gaussian-blur
background `gf sigma img` and set every negative entry to `0`; otherwise
return the input unchanged (the `astype(np.float32)` casts are
value-preserving in the rational model). -/
def subtract_bg (gf : ℚ → Slice2 → Slice2) (img : Slice2) (sigma : ℚ := 12) : Slice2 :=
  if sigma ≠ 0 ∧ 0 < sigma then
    let bg := gf sigma img
    img.zipWith (fun r br => r.zipWith (fun a b => if a - b < 0 then 0 else a - b) br) bg
  else img

/-- Model of the numpy stride slice `l[::ds]`: keep every `ds`-th entry,
starting with the first. -/
def strideTake {α : Type*} (ds : ℕ) : List α → List α
  | [] => []
  | x :: xs => x :: strideTake ds (xs.drop (ds - 1))
termination_by l => l.length
decreasing_by simp [List.length_drop]; omega

/-- The XY part of `stack[:, ::ds, ::ds]`: stride rows, then stride each
kept row. -/
def downsampleXY (ds : ℕ) (s : Slice2) : Slice2 :=
  (strideTake ds s).map (strideTake ds)

/-- A raw numpy array as returned by `tif.series[0].asarray()`: its shape
together with its row-major (C-order) data buffer. -/
structure NpArray where
  shape : List ℕ
  data : List ℚ
deriving DecidableEq, Repr

/-- The `lsm_metadata` mapping of the source file, restricted to the three
keys the converter reads; `none` models an absent key (`dict.get` default). -/
structure LsmMeta where
  VoxelSizeX : Option ℚ
  VoxelSizeY : Option ℚ
  VoxelSizeZ : Option ℚ
deriving DecidableEq, Repr

/-- Exceptions `convert_one` can raise: the two `ValueError` validations and
the numpy `IndexError` from indexing a channel out of range. -/
inductive ConvError where
  | shapeError (shape : List ℕ)
  | channelCountError (c : ℕ)
  | indexError (ch : ℕ) (c : ℕ)
deriving DecidableEq, Repr

/-- A Python `pathlib.Path`, as its list of components. -/
structure PyPath where
  parts : List String
deriving DecidableEq, Repr

/-- The `name` attribute of a path: its final component. -/
def PyPath.name (p : PyPath) : String := p.parts.getLastD ""

/-- The 2D slice `vol[z, ch]` of a 4D C-order array with extents
`(Z, C, Y, X)`: entry `(y, x)` sits at flat offset
`((z*C + ch)*Y + y)*X + x`. -/
def channelSlice (vol : NpArray) (C Y X z ch : ℕ) : Slice2 :=
  (List.range Y).map fun y =>
    (List.range X).map fun x => vol.data.getD (((z * C + ch) * Y + y) * X + x) 0

/-- The per-channel pipeline of the inner function `clean`, after the channel
index has been bounds-checked: background subtraction per Z slice, then
per-slice normalization, then XY stride downsampling. -/
def processChannel (vol : NpArray) (Z C Y X : ℕ) (sigma : ℚ) (ds : ℕ)
    (gf : ℚ → Slice2 → Slice2) (ch : ℕ) : Volume :=
  let stack1 := (List.range Z).map fun z => subtract_bg gf (channelSlice vol C Y X z ch) sigma
  let stack2 := stack1.map fun s => normalize s
  stack2.map (downsampleXY ds)

/-- Embedding of the inner function `clean(ch)` of `convert_one`: numpy
raises `IndexError` when `ch` is not below the channel extent `C`, otherwise
the per-channel pipeline runs. -/
def clean (vol : NpArray) (Z C Y X : ℕ) (sigma : ℚ) (ds : ℕ)
    (gf : ℚ → Slice2 → Slice2) (ch : ℕ) : Except ConvError Volume :=
  if ch < C then .ok (processChannel vol Z C Y X sigma ds gf ch)
  else .error (.indexError ch C)

/-- The `meta.json` record written into the bundle. -/
structure MetaOut where
  vx_um : ℚ
  vy_um : ℚ
  vz_um : ℚ
  ds : ℤ
  sigma : ℚ
  file : String
  channel_map : List ℤ
deriving DecidableEq, Repr

/-- One member of the output zip archive: either an NPY v1.0 payload (header
dtype descriptor, Fortran-order flag, shape, and the row-major data) or the
JSON metadata payload. -/
inductive Member where
  | npy (descr : String) (fortran_order : Bool) (shape : List ℕ) (data : List ℚ)
  | json (m : MetaOut)
deriving DecidableEq, Repr

/-- The shape numpy reports for one of the processed (regular) volumes. -/
def volShape (v : Volume) : List ℕ :=
  [v.length, (v.headD []).length, ((v.headD []).headD []).length]

/-- The row-major flattening of a 3D volume, as serialized in C-order. -/
def volData (v : Volume) : List ℚ :=
  (v.map List.flatten).flatten

/-- Embedding of the inner `write_npy` of `convert_one`:
`np.ascontiguousarray(arr, dtype=np.float32)` followed by
`write_array(..., version=(1, 0))` yields a C-order float32 NPY member
(descriptor string of little-endian 4-byte float). -/
def write_npy (arr : Volume) : Member :=
  .npy "<f4" false (volShape arr) (volData arr)

/-- Embedding of `convert_one` (its pure part, after the tifffile load):
validate the rank, destructure the shape, validate the channel count,
assemble the voxel geometry `float(meta.get(key, 1.0)) * 1e6`, run the
per-channel pipeline on the three mapped channels, and write the archive
members `r.npy`, `g.npy`, `b.npy`, `meta.json` in that order. -/
def convert_one (in_path : PyPath) (vol : NpArray) (meta : LsmMeta)
    (ds : ℕ) (sigma : ℚ) (ch_map : ℕ × ℕ × ℕ) (gf : ℚ → Slice2 → Slice2) :
    Except ConvError (List (String × Member)) :=
  if vol.shape.length ≠ 4 then .error (.shapeError vol.shape) else
  let Z := vol.shape.getD 0 0
  let C := vol.shape.getD 1 0
  let Y := vol.shape.getD 2 0
  let X := vol.shape.getD 3 0
  if C < 3 then .error (.channelCountError C) else
  let vx_um := meta.VoxelSizeX.getD 1 * 1000000
  let vy_um := meta.VoxelSizeY.getD 1 * 1000000
  let vz_um := meta.VoxelSizeZ.getD 1 * 1000000
  match clean vol Z C Y X sigma ds gf ch_map.1 with
  | .error e => .error e
  | .ok r =>
    match clean vol Z C Y X sigma ds gf ch_map.2.1 with
    | .error e => .error e
    | .ok g =>
      match clean vol Z C Y X sigma ds gf ch_map.2.2 with
      | .error e => .error e
      | .ok b =>
        let meta_out : MetaOut :=
          { vx_um := vx_um, vy_um := vy_um, vz_um := vz_um,
            ds := (ds : ℤ), sigma := sigma, file := in_path.name,
            channel_map := [(ch_map.1 : ℤ), (ch_map.2.1 : ℤ), (ch_map.2.2 : ℤ)] }
        .ok [("r.npy", write_npy r), ("g.npy", write_npy g),
             ("b.npy", write_npy b), ("meta.json", Member.json meta_out)]

/-- Reading one member back from the archive by name. -/
def readMember (archive : List (String × Member)) (nm : String) : Option Member :=
  (archive.find? fun e => e.1 == nm).map fun e => e.2

/-- The startup validation of the parsed `--map` argument in `main`: exactly
three entries, all non-negative (`len(ch_map) != 3 or any(i < 0 ...)`). -/
def valid_map_arg (xs : List ℤ) : Bool :=
  xs.length == 3 && xs.all fun i => decide (0 ≤ i)

/-- The batch loop of `main`: each file is converted inside `try/except`, so
every per-file outcome (success or caught exception) is recorded and the
loop always continues with the next file. -/
def batch_convert (files : List (PyPath × NpArray × LsmMeta))
    (ds : ℕ) (sigma : ℚ) (ch_map : ℕ × ℕ × ℕ) (gf : ℚ → Slice2 → Slice2) :
    List (Except ConvError (List (String × Member))) :=
  files.map fun f => convert_one f.1 f.2.1 f.2.2 ds sigma ch_map gf

/-- Index (from the front) of the last occurrence of a dot in a character
list, modelling `str.rfind('.')` with `none` for "not found". -/
def rfindDot : List Char → Option ℕ
  | [] => none
  | c :: rest =>
    match rfindDot rest with
    | some i => some (i + 1)
    | none => if c = '.' then some 0 else none

/-- Model of `pathlib.Path.suffix` of a file name: the part from the last
dot on, empty when there is no dot, when the name starts with the dot
(hidden file), or when the dot is the final character. -/
def pySuffix (name : String) : String :=
  match rfindDot name.data with
  | none => ""
  | some i =>
    if 0 < i ∧ i < name.data.length - 1 then String.mk (name.data.drop i) else ""

/-- Code-point comparison of strings, as Python compares `str` values. -/
def strLtb (a b : String) : Bool := charsLtb a.data b.data
where
  /-- Lexicographic strict order on character lists by code point. -/
  charsLtb : List Char → List Char → Bool
    | [], [] => false
    | [], _ :: _ => true
    | _ :: _, [] => false
    | a :: as, b :: bs => if a < b then true else if b < a then false else charsLtb as bs

/-- Non-strict tuple comparison of path component lists, as Python orders
`pathlib` paths (tuple comparison of their parts). -/
def pathLeb : List String → List String → Bool
  | [], _ => true
  | _ :: _, [] => false
  | a :: as, b :: bs => if strLtb a b then true else if strLtb b a then false else pathLeb as bs

/-- Insert a path into a list sorted by `pathLeb`. -/
def insertPath (x : PyPath) : List PyPath → List PyPath
  | [] => [x]
  | y :: ys => if pathLeb x.parts y.parts then x :: y :: ys else y :: insertPath x ys

/-- Sorting of the discovered paths, modelling Python `sorted(files)`. -/
def sortPaths : List PyPath → List PyPath
  | [] => []
  | x :: xs => insertPath x (sortPaths xs)

/-- What `discover_files` sees of the file system: whether the root path is
a regular file, the direct children of the root (`root.iterdir()`), and all
of its descendants (`root.rglob("*")`); each entry is paired with its
`is_file()` answer. -/
structure FsView where
  rootIsFile : Bool
  direct : List (PyPath × Bool)
  descendants : List (PyPath × Bool)
deriving Repr

/-- Embedding of `discover_files(root, include_tiff, recursive)`: a file
root is returned as-is; a directory root is scanned (recursively or not),
keeping regular files whose suffix is in the extension list, and the result
is sorted. -/
def discover_files (root : PyPath) (fs : FsView)
    (include_tiff : Bool := false) (recursive : Bool := false) : List PyPath :=
  let exts := [".lsm", ".LSM"] ++
    (if include_tiff then [".tif", ".tiff", ".TIF", ".TIFF"] else [])
  if fs.rootIsFile then [root]
  else
    let pool := if recursive then fs.descendants else fs.direct
    sortPaths ((pool.filter fun e => e.2 && exts.contains (pySuffix e.1.name)).map fun e => e.1)

/-- The sortedness predicate for discovered files: each adjacent pair is in
non-decreasing path order. -/
def pathsSorted (l : List PyPath) : Prop :=
  List.Chain' (fun p q => pathLeb p.parts q.parts = true) l

/-- Identity stand-in for the external Gaussian-blur collaborator (trivially
row-structure preserving), used to instantiate theorems on concrete data. -/
def gfId : ℚ → Slice2 → Slice2 := fun _ s => s

/-- A concrete all-zero raw volume of shape `(Z, C, Y, X) = (1, 3, 1, 1)`. -/
def zeroVol : NpArray := ⟨[1, 3, 1, 1], [0, 0, 0]⟩

/-- A concrete input path. -/
def samplePath : PyPath := ⟨["data", "sample.lsm"]⟩

/-- LSM metadata with all three voxel-size keys absent. -/
def noMeta : LsmMeta := ⟨none, none, none⟩

/-- A concrete directory listing, used to instantiate the discovery theorem. -/
def dirFs : FsView :=
  ⟨false,
   [(⟨["d", "b.lsm"]⟩, true), (⟨["d", "a.lsm"]⟩, true),
    (⟨["d", "c.txt"]⟩, true), (⟨["d", "sub"]⟩, false)],
   []⟩

/-! ### Basic facts about the scalar operations -/

theorem clip_mem_unit (x : ℚ) : 0 ≤ clip x 0 1 ∧ clip x 0 1 ≤ 1 := by
  unfold clip
  exact ⟨le_min (le_max_right x 0) zero_le_one, min_le_right _ _⟩

theorem mem_zipWith {α β γ : Type*} {f : α → β → γ} {c : γ} :
    ∀ {l1 : List α} {l2 : List β}, c ∈ List.zipWith f l1 l2 →
      ∃ a b, a ∈ l1 ∧ b ∈ l2 ∧ c = f a b := by
  intro l1
  induction l1 with
  | nil => intro l2 h; simp at h
  | cons x xs ih =>
    intro l2 h
    cases l2 with
    | nil => simp at h
    | cons y ys =>
      rcases List.mem_cons.1 h with h | h
      · exact ⟨x, y, List.mem_cons_self _ _, List.mem_cons_self _ _, h⟩
      · rcases ih h with ⟨a, b, ha, hb, rfl⟩
        exact ⟨a, b, List.mem_cons_of_mem _ ha, List.mem_cons_of_mem _ hb, rfl⟩

/-! ### Facts about `normalize` -/

theorem mem_normalize_unit {img : Slice2} {lo hi : ℚ} {row : List ℚ} {a : ℚ}
    (hrow : row ∈ normalize img lo hi) (ha : a ∈ row) : 0 ≤ a ∧ a ≤ 1 := by
  simp only [normalize] at hrow
  split at hrow
  · rcases List.mem_map.1 hrow with ⟨r0, -, rfl⟩
    rcases List.mem_map.1 ha with ⟨b, -, rfl⟩
    norm_num
  · rcases List.mem_map.1 hrow with ⟨r0, -, rfl⟩
    rcases List.mem_map.1 ha with ⟨b, -, rfl⟩
    exact clip_mem_unit _

theorem length_normalize (img : Slice2) (lo hi : ℚ) :
    (normalize img lo hi).length = img.length := by
  simp only [normalize]
  split <;> simp

theorem map_length_normalize (img : Slice2) (lo hi : ℚ) :
    (normalize img lo hi).map List.length = img.map List.length := by
  simp only [normalize]
  split <;> simp [Function.comp]

/-! ### Facts about `subtract_bg` -/

theorem subtract_bg_sigma_nonpos (gf : ℚ → Slice2 → Slice2) (img : Slice2) {sigma : ℚ}
    (h : sigma ≤ 0) : subtract_bg gf img sigma = img := by
  unfold subtract_bg
  rw [if_neg]
  rintro ⟨-, h2⟩
  exact absurd h2 (not_lt.2 h)

theorem subtract_bg_sigma_pos (gf : ℚ → Slice2 → Slice2) (img : Slice2) {sigma : ℚ}
    (h : 0 < sigma) :
    subtract_bg gf img sigma =
      img.zipWith (fun r br => r.zipWith (fun a b => if a - b < 0 then 0 else a - b) br)
        (gf sigma img) := by
  unfold subtract_bg
  rw [if_pos ⟨ne_of_gt h, h⟩]

theorem subtract_bg_nonneg (gf : ℚ → Slice2 → Slice2) (img : Slice2) {sigma : ℚ}
    (h : 0 < sigma) {row : List ℚ} {a : ℚ}
    (hrow : row ∈ subtract_bg gf img sigma) (ha : a ∈ row) : 0 ≤ a := by
  rw [subtract_bg_sigma_pos gf img h] at hrow
  rcases mem_zipWith hrow with ⟨r, br, -, -, rfl⟩
  rcases mem_zipWith ha with ⟨x, y, -, -, rfl⟩
  split
  · exact le_refl 0
  · next hxy => exact le_of_not_lt hxy

/-! ### Facts about `strideTake` -/

theorem strideTake_nil {α : Type*} (ds : ℕ) : strideTake (α := α) ds [] = [] := by
  rw [strideTake]

theorem strideTake_cons {α : Type*} (ds : ℕ) (x : α) (xs : List α) :
    strideTake ds (x :: xs) = x :: strideTake ds (xs.drop (ds - 1)) := by
  rw [strideTake]

theorem mem_strideTake {α : Type*} {ds : ℕ} {a : α} :
    ∀ {l : List α}, a ∈ strideTake ds l → a ∈ l := by
  intro l
  induction l using strideTake.induct ds with
  | case1 => intro h; rw [strideTake_nil] at h; exact absurd h (List.not_mem_nil a)
  | case2 x xs ih =>
    intro h
    rw [strideTake_cons] at h
    rcases List.mem_cons.1 h with h | h
    · exact h ▸ List.mem_cons_self _ _
    · exact List.mem_cons_of_mem _ (List.mem_of_mem_drop (ih h))

theorem strideTake_one {α : Type*} : ∀ l : List α, strideTake 1 l = l := by
  intro l
  induction l with
  | nil => exact strideTake_nil 1
  | cons x xs ih => rw [strideTake_cons]; simp [ih]

theorem length_strideTake {α : Type*} {ds : ℕ} (hds : 0 < ds) :
    ∀ l : List α, (strideTake ds l).length = (l.length + ds - 1) / ds := by
  intro l
  induction l using strideTake.induct ds with
  | case1 =>
    rw [strideTake_nil]
    simp only [List.length_nil, Nat.zero_add]
    exact (Nat.div_eq_of_lt (by omega)).symm
  | case2 x xs ih =>
    rw [strideTake_cons]
    simp only [List.length_cons, ih, List.length_drop]
    have hr : xs.length + 1 + ds - 1 = xs.length + ds := by omega
    rw [hr, Nat.add_div_right _ hds]
    congr 1
    rcases Nat.lt_or_ge xs.length (ds - 1) with h | h
    · have e1 : xs.length - (ds - 1) + ds - 1 = ds - 1 := by omega
      rw [e1, Nat.div_eq_of_lt (by omega), Nat.div_eq_of_lt (by omega)]
    · have e1 : xs.length - (ds - 1) + ds - 1 = xs.length := by omega
      rw [e1]

theorem getElem?_strideTake {α : Type*} {ds : ℕ} (hds : 0 < ds) :
    ∀ l : List α, ∀ i : ℕ, (strideTake ds l)[i]? = l[ds * i]? := by
  intro l
  induction l using strideTake.induct ds with
  | case1 => intro i; rw [strideTake_nil]; simp
  | case2 x xs ih =>
    intro i
    rw [strideTake_cons]
    cases i with
    | zero => simp
    | succ j =>
      rw [List.getElem?_cons_succ, ih j, List.getElem?_drop]
      have hmul : ds * (j + 1) = ds - 1 + ds * j + 1 := by
        rw [Nat.mul_succ]
        generalize ds * j = m
        omega
      rw [hmul, List.getElem?_cons_succ]

/-! ### Facts about `sortRat` and `percentile` -/

theorem length_insertRat (x : ℚ) : ∀ l : List ℚ, (insertRat x l).length = l.length + 1 := by
  intro l
  induction l with
  | nil => rfl
  | cons y ys ih =>
    rw [insertRat]
    split
    · simp
    · simp [ih]

theorem length_sortRat : ∀ l : List ℚ, (sortRat l).length = l.length := by
  intro l
  induction l with
  | nil => rfl
  | cons x xs ih => rw [sortRat, length_insertRat, ih, List.length_cons]

theorem insertRat_const (c : ℚ) : ∀ n : ℕ,
    insertRat c (List.replicate n c) = List.replicate (n + 1) c := by
  intro n
  induction n with
  | zero => rfl
  | succ m _ =>
    rw [List.replicate_succ, insertRat, if_pos (le_refl c), ← List.replicate_succ,
      ← List.replicate_succ]

theorem sortRat_const {c : ℚ} : ∀ {l : List ℚ}, (∀ a ∈ l, a = c) →
    sortRat l = List.replicate l.length c := by
  intro l
  induction l with
  | nil => intro _; rfl
  | cons x xs ih =>
    intro h
    have hx : x = c := h x (List.mem_cons_self _ _)
    rw [sortRat, ih fun a ha => h a (List.mem_cons_of_mem _ ha), hx, insertRat_const,
      List.length_cons]

theorem getD_replicate_of_lt {α : Type*} (c d : α) {n i : ℕ} (h : i < n) :
    (List.replicate n c).getD i d = c := by
  rw [List.getD_eq_getElem?_getD, List.getElem?_replicate, if_pos h]
  rfl

theorem percentile_const {xs : List ℚ} {c q : ℚ} (hne : xs ≠ []) (hall : ∀ a ∈ xs, a = c)
    (hq0 : 0 ≤ q) (hq1 : q ≤ 100) : percentile xs q = c := by
  have hn : 1 ≤ xs.length := List.length_pos.2 hne
  simp only [percentile, sortRat_const hall, List.length_replicate]
  set n := xs.length with hn'
  set pos : ℚ := q / 100 * ((n : ℚ) - 1) with hpos
  have hn1 : (1 : ℚ) ≤ (n : ℚ) := by exact_mod_cast hn
  have hpos0 : 0 ≤ pos := by
    apply mul_nonneg (div_nonneg hq0 (by norm_num))
    linarith
  have hposle : pos ≤ (n : ℚ) - 1 := by
    have h100 : q / 100 ≤ 1 := (div_le_one (show (0:ℚ) < 100 by norm_num)).2 hq1
    calc q / 100 * ((n : ℚ) - 1) ≤ 1 * ((n : ℚ) - 1) := by
          apply mul_le_mul_of_nonneg_right h100
          linarith
    _ = (n : ℚ) - 1 := one_mul _
  have hfl0 : 0 ≤ ⌊pos⌋ := Int.floor_nonneg.2 hpos0
  have hflle : ⌊pos⌋ ≤ (n : ℤ) - 1 := by
    have h1 : ((n : ℤ) - 1 : ℤ) = ⌊((n : ℚ) - 1 : ℚ)⌋ := by
      rw [show ((n : ℚ) - 1 : ℚ) = (((n : ℤ) - 1 : ℤ) : ℚ) by push_cast; ring, Int.floor_intCast]
    rw [h1]
    exact Int.floor_le_floor hposle
  have hi : ⌊pos⌋.toNat < n := by omega
  rw [getD_replicate_of_lt c _ hi]
  have hiv : (List.replicate n c).getD (⌊pos⌋.toNat + 1) c = c := by
    rcases Nat.lt_or_ge (⌊pos⌋.toNat + 1) n with h | h
    · exact getD_replicate_of_lt c c h
    · rw [List.getD_eq_getElem?_getD, List.getElem?_replicate, if_neg (by omega)]
      rfl
  rw [hiv]
  ring

theorem normalize_const {img : Slice2} {c : ℚ} (hne : img.flatten ≠ [])
    (hall : ∀ a ∈ img.flatten, a = c) :
    normalize img = img.map fun row => row.map fun _ => 0 := by
  have hlo := percentile_const (q := 0.5) hne hall (by norm_num) (by norm_num)
  have hhi := percentile_const (q := 99.5) hne hall (by norm_num) (by norm_num)
  simp only [normalize]
  rw [if_pos (by rw [hlo, hhi])]

/-! ### Shape preservation through the pipeline -/

theorem map_length_zipWith_rows {g : ℚ → ℚ → ℚ} :
    ∀ (img bg : Slice2), bg.map List.length = img.map List.length →
      (img.zipWith (fun r br => r.zipWith g br) bg).map List.length =
        img.map List.length := by
  intro img
  induction img with
  | nil => intro bg _; simp
  | cons r rs ih =>
    intro bg h
    cases bg with
    | nil => simp at h
    | cons br brs =>
      simp only [List.map_cons, List.cons.injEq] at h
      simp only [List.zipWith_cons_cons, List.map_cons, List.cons.injEq]
      refine ⟨?_, ih brs h.2⟩
      rw [List.length_zipWith, h.1, Nat.min_self]

theorem map_length_subtract_bg (gf : ℚ → Slice2 → Slice2) (img : Slice2) (sigma : ℚ)
    (hgf : (gf sigma img).map List.length = img.map List.length) :
    (subtract_bg gf img sigma).map List.length = img.map List.length := by
  unfold subtract_bg
  split
  · exact map_length_zipWith_rows img (gf sigma img) hgf
  · rfl

theorem length_of_map_length {α : Type*} {l l' : List α} {f g : α → ℕ}
    (h : l.map f = l'.map g) : l.length = l'.length := by
  have := congrArg List.length h
  simpa using this

theorem map_length_channelSlice (vol : NpArray) (C Y X z ch : ℕ) :
    (channelSlice vol C Y X z ch).map List.length = List.replicate Y X := by
  simp only [channelSlice, List.map_map]
  have : (List.length ∘ fun y : ℕ =>
      (List.range X).map fun x => vol.data.getD (((z * C + ch) * Y + y) * X + x) 0) =
      fun _ : ℕ => X := by
    funext y
    simp
  rw [this, List.map_const', List.length_range]

theorem mem_length_of_map_length_replicate {l : Slice2} {n k : ℕ}
    (h : l.map List.length = List.replicate n k) {r : List ℚ} (hr : r ∈ l) :
    r.length = k := by
  have : r.length ∈ l.map List.length := List.mem_map_of_mem _ hr
  rw [h] at this
  exact List.eq_of_mem_replicate this

/-- Ceiling division bridge: the stride-slice length `(n + ds - 1) / ds` in
natural division is exactly `ceil(n / ds)`. -/
theorem natCeilDiv_eq_ceil {n ds : ℕ} (hds : 0 < ds) :
    (((n + ds - 1) / ds : ℕ) : ℤ) = ⌈(n : ℚ) / (ds : ℚ)⌉ := by
  set z := (n + ds - 1) / ds with hz
  have h1 : z * ds ≤ n + ds - 1 := Nat.div_mul_le_self _ _
  have h2 : n + ds - 1 < (z + 1) * ds := (Nat.div_lt_iff_lt_mul hds).1 (Nat.lt_succ_self z)
  rw [Nat.succ_mul] at h2
  have hA : n ≤ z * ds := by
    generalize z * ds = m at h1 h2
    omega
  have hB2 : z * ds + 1 ≤ n + ds := by
    generalize z * ds = m at h1 h2
    omega
  have hds' : (0 : ℚ) < (ds : ℚ) := by exact_mod_cast hds
  have hZ1 : ((z : ℤ) - 1) * (ds : ℤ) < (n : ℤ) := by
    have h' : (z : ℤ) * ds + 1 ≤ (n : ℤ) + ds := by exact_mod_cast hB2
    have e : ((z : ℤ) - 1) * (ds : ℤ) = (z : ℤ) * ds - ds := by ring
    rw [e]
    linarith
  have hZ2 : (n : ℤ) ≤ (z : ℤ) * ds := by exact_mod_cast hA
  rw [eq_comm, Int.ceil_eq_iff]
  constructor
  · rw [lt_div_iff₀ hds']
    exact_mod_cast hZ1
  · rw [div_le_iff₀ hds']
    exact_mod_cast hZ2


/-- Full shape analysis of the per-channel pipeline (given that the Gaussian
blur collaborator preserves row structure, as `scipy.ndimage.gaussian_filter`
does): `Z` slices, each with `(Y + ds - 1) / ds` rows of
`(X + ds - 1) / ds` entries. -/
theorem shape_processChannel (vol : NpArray) (Z C Y X : ℕ) (sigma : ℚ) (ds : ℕ)
    (gf : ℚ → Slice2 → Slice2) (ch : ℕ)
    (hgf : ∀ q s, (gf q s).map List.length = s.map List.length) (hds : 0 < ds) :
    (processChannel vol Z C Y X sigma ds gf ch).length = Z ∧
      ∀ s ∈ processChannel vol Z C Y X sigma ds gf ch,
        s.length = (Y + ds - 1) / ds ∧ ∀ row ∈ s, row.length = (X + ds - 1) / ds := by
  constructor
  · simp [processChannel]
  · intro s hs
    simp only [processChannel, List.map_map, List.mem_map, List.mem_range] at hs
    rcases hs with ⟨z, -, rfl⟩
    set s1 := subtract_bg gf (channelSlice vol C Y X z ch) sigma with hs1
    have hml1 : s1.map List.length = List.replicate Y X := by
      rw [hs1, map_length_subtract_bg gf _ sigma (hgf _ _), map_length_channelSlice]
    have hml2 : (normalize s1).map List.length = List.replicate Y X := by
      rw [map_length_normalize, hml1]
    have hlen2 : (normalize s1).length = Y := by
      have := congrArg List.length hml2
      simpa using this
    constructor
    · simp only [Function.comp, downsampleXY, List.length_map]
      rw [length_strideTake hds, hlen2]
    · intro row hrow
      simp only [Function.comp, downsampleXY, List.mem_map] at hrow
      rcases hrow with ⟨row2, hrow2, rfl⟩
      have hrow2' : row2 ∈ normalize s1 := mem_strideTake hrow2
      have hX : row2.length = X := mem_length_of_map_length_replicate hml2 hrow2'
      rw [length_strideTake hds, hX]

/-- Characterization of a successful conversion: with a well-formed 4D shape,
at least three channels and in-range channel map, `convert_one` returns the
four archive members in order. -/
theorem convert_one_ok (p : PyPath) (vol : NpArray) (meta : LsmMeta) (ds : ℕ) (sigma : ℚ)
    (i0 i1 i2 : ℕ) (gf : ℚ → Slice2 → Slice2) {Z C Y X : ℕ}
    (hshape : vol.shape = [Z, C, Y, X]) (hC : 3 ≤ C)
    (h0 : i0 < C) (h1 : i1 < C) (h2 : i2 < C) :
    convert_one p vol meta ds sigma (i0, i1, i2) gf =
      .ok [("r.npy", write_npy (processChannel vol Z C Y X sigma ds gf i0)),
           ("g.npy", write_npy (processChannel vol Z C Y X sigma ds gf i1)),
           ("b.npy", write_npy (processChannel vol Z C Y X sigma ds gf i2)),
           ("meta.json", Member.json
             { vx_um := meta.VoxelSizeX.getD 1 * 1000000,
               vy_um := meta.VoxelSizeY.getD 1 * 1000000,
               vz_um := meta.VoxelSizeZ.getD 1 * 1000000,
               ds := (ds : ℤ), sigma := sigma, file := p.name,
               channel_map := [(i0 : ℤ), (i1 : ℤ), (i2 : ℤ)] })] := by
  simp only [convert_one, hshape]
  rw [if_neg (by simp)]
  simp only [List.getD_cons_zero, List.getD_cons_succ]
  rw [if_neg (by omega)]
  simp only [clean]
  rw [if_pos h0, if_pos h1, if_pos h2]


/-! ### Facts about path sorting and file discovery -/

theorem pathLeb_total : ∀ a b : List String, pathLeb a b = true ∨ pathLeb b a = true := by
  intro a
  induction a with
  | nil => intro b; left; rfl
  | cons x xs ih =>
    intro b
    cases b with
    | nil => right; rfl
    | cons y ys =>
      by_cases h1 : strLtb x y
      · left; simp [pathLeb, h1]
      · by_cases h2 : strLtb y x
        · right; simp [pathLeb, h2]
        · rcases ih ys with h | h
          · left; simp [pathLeb, h1, h2, h]
          · right; simp [pathLeb, h1, h2, h]

theorem mem_insertPath {x a : PyPath} : ∀ {l : List PyPath},
    (a ∈ insertPath x l ↔ a = x ∨ a ∈ l) := by
  intro l
  induction l with
  | nil => simp [insertPath]
  | cons y ys ih =>
    rw [insertPath]
    split
    · simp
    · simp only [List.mem_cons, ih]
      tauto

theorem mem_sortPaths {a : PyPath} : ∀ {l : List PyPath}, (a ∈ sortPaths l ↔ a ∈ l) := by
  intro l
  induction l with
  | nil => simp [sortPaths]
  | cons x xs ih => simp [sortPaths, mem_insertPath, ih]

theorem sorted_insertPath (x : PyPath) : ∀ {l : List PyPath},
    pathsSorted l → pathsSorted (insertPath x l) := by
  intro l
  induction l with
  | nil => intro _; simp [insertPath, pathsSorted]
  | cons y ys ih =>
    intro h
    rw [insertPath]
    split
    · next hxy => exact List.chain'_cons.2 ⟨hxy, h⟩
    · next hxy =>
      have hyx : pathLeb y.parts x.parts = true := by
        rcases pathLeb_total x.parts y.parts with h' | h'
        · exact absurd h' hxy
        · exact h'
      rcases List.chain'_cons'.1 h with ⟨hhead, hys⟩
      refine List.chain'_cons'.2 ⟨?_, ih hys⟩
      intro z hz
      cases ys with
      | nil =>
        simp [insertPath] at hz
        rw [← hz]
        exact hyx
      | cons w ws =>
        rw [insertPath] at hz
        split at hz
        · simp at hz
          rw [← hz]
          exact hyx
        · simp at hz
          rw [← hz]
          exact hhead w rfl

theorem sorted_sortPaths : ∀ l : List PyPath, pathsSorted (sortPaths l) := by
  intro l
  induction l with
  | nil => simp [sortPaths, pathsSorted]
  | cons x xs ih => exact sorted_insertPath x ih


/-! ### Concrete-instance evaluation lemmas -/

theorem getD_zeroVol_data : ∀ n : ℕ, zeroVol.data.getD n 0 = 0 := by
  intro n
  rcases n with _ | _ | _ | n <;> rfl

theorem channelSlice_zeroVol (ch : ℕ) : channelSlice zeroVol 3 1 1 0 ch = [[0]] := by
  simp only [channelSlice, show List.range 1 = [0] from rfl, List.map_cons, List.map_nil]
  rw [show ((0 * 3 + ch) * 1 + 0) * 1 + 0 = ch by ring, getD_zeroVol_data]

theorem normalize_zero_slice : normalize [[(0 : ℚ)]] = [[0]] := by
  have h := @normalize_const [[(0 : ℚ)]] 0 (by simp) (by simp)
  simpa using h

theorem strideTake_one_eq_id {α : Type*} : (strideTake 1 : List α → List α) = id :=
  funext strideTake_one

theorem downsampleXY_one (s : Slice2) : downsampleXY 1 s = s := by
  simp [downsampleXY, strideTake_one_eq_id]

theorem processChannel_zeroVol (ch : ℕ) :
    processChannel zeroVol 1 3 1 1 0 1 gfId ch = [[[0]]] := by
  simp only [processChannel, show List.range 1 = [0] from rfl, List.map_cons, List.map_nil]
  rw [subtract_bg_sigma_nonpos gfId _ (le_refl 0), channelSlice_zeroVol,
    normalize_zero_slice, downsampleXY_one]


/-! ### Claim theorems -/

/-- C2: for every input channel volume, every sigma and every downsample
stride, every element of the ProcessedVolume produced by the per-channel
pipeline (background subtraction, per-slice normalization, stride
downsampling) lies in the closed interval [0, 1].  In this exact rational
model every element is a well-defined rational, so no NaN or infinity can
arise. -/
theorem processedVolume_unit_interval (vol : NpArray) (Z C Y X : ℕ) (sigma : ℚ) (ds : ℕ)
    (gf : ℚ → Slice2 → Slice2) (ch : ℕ) {s : Slice2} {row : List ℚ} {a : ℚ}
    (hs : s ∈ processChannel vol Z C Y X sigma ds gf ch)
    (hrow : row ∈ s) (ha : a ∈ row) : 0 ≤ a ∧ a ≤ 1 := by
  simp only [processChannel, List.map_map, List.mem_map, List.mem_range] at hs
  rcases hs with ⟨z, -, rfl⟩
  simp only [Function.comp, downsampleXY, List.mem_map] at hrow
  rcases hrow with ⟨row2, hrow2, rfl⟩
  exact mem_normalize_unit (mem_strideTake hrow2) (mem_strideTake ha)

/-- Witness for C2 at the concrete zero volume. -/
theorem processedVolume_unit_interval_witness : (0 : ℚ) ≤ 0 ∧ (0 : ℚ) ≤ 1 :=
  @processedVolume_unit_interval zeroVol 1 3 1 1 0 1 gfId 0 [[0]] [0] 0
    (by rw [processChannel_zeroVol]; simp) (by simp) (by simp)

/-- C3: `normalize` computes lo and hi as the 0.5th and 99.5th percentiles of
the (flattened) slice; when they coincide — in particular on any nonempty
constant slice — it returns an all-zero array of the same shape (a
total-function result, hence never NaN/Inf in this model), and otherwise it
returns `clip((slice - lo) / (hi - lo), 0, 1)` elementwise. -/
theorem normalize_percentile_spec (img : Slice2) :
    (percentile img.flatten 99.5 = percentile img.flatten 0.5 →
      normalize img = img.map fun row => row.map fun _ => 0) ∧
    (percentile img.flatten 99.5 ≠ percentile img.flatten 0.5 →
      normalize img = img.map fun row => row.map fun a =>
        clip ((a - percentile img.flatten 0.5) /
          (percentile img.flatten 99.5 - percentile img.flatten 0.5)) 0 1) ∧
    ((normalize img).map List.length = img.map List.length) ∧
    (∀ c : ℚ, img.flatten ≠ [] → (∀ a ∈ img.flatten, a = c) →
      normalize img = img.map fun row => row.map fun _ => 0) := by
  refine ⟨?_, ?_, map_length_normalize img 0.5 99.5, fun c hne hall => normalize_const hne hall⟩
  · intro h
    simp only [normalize]
    rw [if_pos h]
  · intro h
    simp only [normalize]
    rw [if_neg h]

/-- Witness for C3: a constant slice normalizes to all zeros. -/
theorem normalize_percentile_spec_witness : normalize [[(5 : ℚ), 5]] = [[0, 0]] := by
  have h := (normalize_percentile_spec [[(5 : ℚ), 5]]).2.2.2 5 (by simp)
    (by intro a ha; simpa using ha)
  simpa using h

/-- C4: `subtract_bg` with non-positive sigma returns the input unchanged in
value (the float cast is value-preserving in this model); with positive
sigma it returns the input minus the Gaussian-blur background with all
negative results clamped to zero, hence every element non-negative. -/
theorem subtract_bg_spec (gf : ℚ → Slice2 → Slice2) (img : Slice2) (sigma : ℚ) :
    (sigma ≤ 0 → subtract_bg gf img sigma = img) ∧
    (0 < sigma →
      subtract_bg gf img sigma =
        img.zipWith (fun r br => r.zipWith (fun a b => if a - b < 0 then 0 else a - b) br)
          (gf sigma img) ∧
      ∀ row ∈ subtract_bg gf img sigma, ∀ a ∈ row, 0 ≤ a) := by
  refine ⟨fun h => subtract_bg_sigma_nonpos gf img h,
    fun h => ⟨subtract_bg_sigma_pos gf img h, ?_⟩⟩
  intro row hrow a ha
  exact subtract_bg_nonneg gf img h hrow ha

/-- Witness for C4 at sigma = 0 and sigma = 1 on a concrete slice. -/
theorem subtract_bg_spec_witness :
    subtract_bg gfId [[(3 : ℚ)]] 0 = [[3]] ∧
      ∀ row ∈ subtract_bg gfId [[(3 : ℚ)]] 1, ∀ a ∈ row, 0 ≤ a :=
  ⟨(subtract_bg_spec gfId [[(3 : ℚ)]] 0).1 (le_refl 0),
   ((subtract_bg_spec gfId [[(3 : ℚ)]] 1).2 (by norm_num)).2⟩


/-- C5: for a channel of a (Z, C, Y, X) volume and positive stride ds, the
ProcessedVolume has Z slices of `ceil(Y/ds)` rows by `ceil(X/ds)` columns
(`(n + ds - 1) / ds` in natural division, proved equal to the rational
ceiling); downsampling is pure stride decimation (entry i comes from
pre-decimation entry ds*i, no averaging), and with ds = 1 the pipeline result
is exactly the undecimated stack. -/
theorem processChannel_shape (vol : NpArray) (Z C Y X : ℕ) (sigma : ℚ) (ds : ℕ)
    (gf : ℚ → Slice2 → Slice2) (ch : ℕ)
    (hgf : ∀ q s, (gf q s).map List.length = s.map List.length) (hds : 0 < ds) :
    ((processChannel vol Z C Y X sigma ds gf ch).length = Z ∧
      ∀ s ∈ processChannel vol Z C Y X sigma ds gf ch,
        s.length = (Y + ds - 1) / ds ∧ ∀ row ∈ s, row.length = (X + ds - 1) / ds) ∧
    ((((Y + ds - 1) / ds : ℕ) : ℤ) = ⌈(Y : ℚ) / (ds : ℚ)⌉ ∧
      (((X + ds - 1) / ds : ℕ) : ℤ) = ⌈(X : ℚ) / (ds : ℚ)⌉) ∧
    (∀ (l : List ℚ) (i : ℕ), (strideTake ds l)[i]? = l[ds * i]?) ∧
    (ds = 1 → processChannel vol Z C Y X sigma ds gf ch =
      (List.range Z).map fun z =>
        normalize (subtract_bg gf (channelSlice vol C Y X z ch) sigma)) := by
  refine ⟨shape_processChannel vol Z C Y X sigma ds gf ch hgf hds,
    ⟨natCeilDiv_eq_ceil hds, natCeilDiv_eq_ceil hds⟩,
    fun l i => getElem?_strideTake hds l i, ?_⟩
  rintro rfl
  simp only [processChannel, List.map_map]
  apply List.map_congr_left
  intro z _
  simp [Function.comp, downsampleXY_one]

/-- Witness for C5 at a concrete volume and stride 2. -/
theorem processChannel_shape_witness :
    (processChannel zeroVol 1 3 1 1 0 2 gfId 0).length = 1 :=
  (processChannel_shape zeroVol 1 3 1 1 0 2 gfId 0 (fun _ _ => rfl) (by norm_num)).1.1

/-- C6: an input array whose rank is not 4 makes `convert_one` fail with the
shape `ValueError` carrying the offending shape, whatever the other
parameters (so before the channel-count check and before any processing);
a 4-axis array with fewer than 3 channels fails with the channel-count
`ValueError` carrying the actual count, again whatever the map. -/
theorem convert_one_validation (p : PyPath) (vol : NpArray) (meta : LsmMeta)
    (ds : ℕ) (sigma : ℚ) (ch_map : ℕ × ℕ × ℕ) (gf : ℚ → Slice2 → Slice2) :
    (vol.shape.length ≠ 4 →
      convert_one p vol meta ds sigma ch_map gf = .error (.shapeError vol.shape)) ∧
    (∀ Z C Y X : ℕ, vol.shape = [Z, C, Y, X] → C < 3 →
      convert_one p vol meta ds sigma ch_map gf = .error (.channelCountError C)) := by
  constructor
  · intro h
    simp only [convert_one]
    rw [if_pos h]
  · intro Z C Y X hs hC
    simp only [convert_one, hs]
    rw [if_neg (by simp)]
    simp only [List.getD_cons_zero, List.getD_cons_succ]
    rw [if_pos hC]

/-- Witness for C6: a 3-axis array and a 2-channel array. -/
theorem convert_one_validation_witness :
    convert_one samplePath ⟨[3, 2, 2], []⟩ noMeta 6 12 (2, 0, 1) gfId =
      .error (.shapeError [3, 2, 2]) ∧
    convert_one samplePath ⟨[1, 2, 4, 4], []⟩ noMeta 6 12 (2, 0, 1) gfId =
      .error (.channelCountError 2) :=
  ⟨(convert_one_validation samplePath ⟨[3, 2, 2], []⟩ noMeta 6 12 (2, 0, 1) gfId).1
      (by decide),
   (convert_one_validation samplePath ⟨[1, 2, 4, 4], []⟩ noMeta 6 12 (2, 0, 1) gfId).2
      1 2 4 4 rfl (by decide)⟩


/-- C1 (code bug evidence): on a source file whose metadata has no
VoxelSizeX/Y/Z keys, `convert_one` stores `float(meta.get(key, 1.0)) * 1e6 =
1000000.0` micrometers per axis — not the 1.0 micrometer that the claim (and
the module docstring) states. -/
theorem voxel_default_code_bug :
    convert_one samplePath zeroVol noMeta 1 0 (0, 1, 2) gfId =
      .ok [("r.npy", write_npy [[[0]]]), ("g.npy", write_npy [[[0]]]),
           ("b.npy", write_npy [[[0]]]),
           ("meta.json", Member.json
             { vx_um := 1000000, vy_um := 1000000, vz_um := 1000000,
               ds := 1, sigma := 0, file := "sample.lsm", channel_map := [0, 1, 2] })] ∧
    (1000000 : ℚ) ≠ 1 := by
  constructor
  · rw [convert_one_ok samplePath zeroVol noMeta 1 0 0 1 2 gfId rfl (by norm_num)
      (by norm_num) (by norm_num) (by norm_num)]
    simp [processChannel_zeroVol, noMeta, samplePath, PyPath.name]
  · norm_num

/-- C7: a successful conversion yields an archive of exactly the four members
`r.npy`, `g.npy`, `b.npy`, `meta.json` in order; reading each array member
back gives a C-order (`fortran_order = false`) float32 (`<f4`) payload with
the shape and the row-major data of the corresponding ProcessedVolume, and
reading the metadata member reproduces the voxel sizes, integer ds, float
sigma, the three-entry integer channel map, and the file name (final path
component only). -/
theorem bundle_roundtrip (p : PyPath) (vol : NpArray) (meta : LsmMeta) (ds : ℕ) (sigma : ℚ)
    (i0 i1 i2 : ℕ) (gf : ℚ → Slice2 → Slice2) {Z C Y X : ℕ}
    (hshape : vol.shape = [Z, C, Y, X]) (hC : 3 ≤ C)
    (h0 : i0 < C) (h1 : i1 < C) (h2 : i2 < C) :
    ∃ archive, convert_one p vol meta ds sigma (i0, i1, i2) gf = .ok archive ∧
      archive.map Prod.fst = ["r.npy", "g.npy", "b.npy", "meta.json"] ∧
      readMember archive "r.npy" = some (Member.npy "<f4" false
        (volShape (processChannel vol Z C Y X sigma ds gf i0))
        (volData (processChannel vol Z C Y X sigma ds gf i0))) ∧
      readMember archive "g.npy" = some (Member.npy "<f4" false
        (volShape (processChannel vol Z C Y X sigma ds gf i1))
        (volData (processChannel vol Z C Y X sigma ds gf i1))) ∧
      readMember archive "b.npy" = some (Member.npy "<f4" false
        (volShape (processChannel vol Z C Y X sigma ds gf i2))
        (volData (processChannel vol Z C Y X sigma ds gf i2))) ∧
      readMember archive "meta.json" = some (Member.json
        { vx_um := meta.VoxelSizeX.getD 1 * 1000000,
          vy_um := meta.VoxelSizeY.getD 1 * 1000000,
          vz_um := meta.VoxelSizeZ.getD 1 * 1000000,
          ds := (ds : ℤ), sigma := sigma, file := p.name,
          channel_map := [(i0 : ℤ), (i1 : ℤ), (i2 : ℤ)] }) := by
  refine ⟨_, convert_one_ok p vol meta ds sigma i0 i1 i2 gf hshape hC h0 h1 h2,
    rfl, rfl, rfl, rfl, rfl⟩

/-- Witness for C7 at a concrete volume. -/
theorem bundle_roundtrip_witness :
    ∃ archive, convert_one samplePath zeroVol noMeta 6 12 (0, 1, 2) gfId = .ok archive ∧
      archive.map Prod.fst = ["r.npy", "g.npy", "b.npy", "meta.json"] := by
  rcases bundle_roundtrip samplePath zeroVol noMeta 6 12 0 1 2 gfId rfl (by norm_num)
    (by norm_num) (by norm_num) (by norm_num) with ⟨ar, hok, hnames, -⟩
  exact ⟨ar, hok, hnames⟩

/-- C8: channel mapping is order-preserving — the r, g, b outputs are the
per-channel pipeline applied to source channels i0, i1, i2 respectively —
and indices may alias: with map (c, c, c) the three array members are
literally the same processed volume, since extraction and processing happen
once per mapped index. -/
theorem channel_map_order_alias (p : PyPath) (vol : NpArray) (meta : LsmMeta)
    (ds : ℕ) (sigma : ℚ) (gf : ℚ → Slice2 → Slice2) {Z C Y X : ℕ}
    (hshape : vol.shape = [Z, C, Y, X]) (hC : 3 ≤ C) :
    (∀ i0 i1 i2 : ℕ, i0 < C → i1 < C → i2 < C →
      convert_one p vol meta ds sigma (i0, i1, i2) gf =
        .ok [("r.npy", write_npy (processChannel vol Z C Y X sigma ds gf i0)),
             ("g.npy", write_npy (processChannel vol Z C Y X sigma ds gf i1)),
             ("b.npy", write_npy (processChannel vol Z C Y X sigma ds gf i2)),
             ("meta.json", Member.json
               { vx_um := meta.VoxelSizeX.getD 1 * 1000000,
                 vy_um := meta.VoxelSizeY.getD 1 * 1000000,
                 vz_um := meta.VoxelSizeZ.getD 1 * 1000000,
                 ds := (ds : ℤ), sigma := sigma, file := p.name,
                 channel_map := [(i0 : ℤ), (i1 : ℤ), (i2 : ℤ)] })]) ∧
    (∀ c : ℕ, c < C →
      convert_one p vol meta ds sigma (c, c, c) gf =
        .ok [("r.npy", write_npy (processChannel vol Z C Y X sigma ds gf c)),
             ("g.npy", write_npy (processChannel vol Z C Y X sigma ds gf c)),
             ("b.npy", write_npy (processChannel vol Z C Y X sigma ds gf c)),
             ("meta.json", Member.json
               { vx_um := meta.VoxelSizeX.getD 1 * 1000000,
                 vy_um := meta.VoxelSizeY.getD 1 * 1000000,
                 vz_um := meta.VoxelSizeZ.getD 1 * 1000000,
                 ds := (ds : ℤ), sigma := sigma, file := p.name,
                 channel_map := [(c : ℤ), (c : ℤ), (c : ℤ)] })]) :=
  ⟨fun i0 i1 i2 h0 h1 h2 =>
    convert_one_ok p vol meta ds sigma i0 i1 i2 gf hshape hC h0 h1 h2,
   fun c hc => convert_one_ok p vol meta ds sigma c c c gf hshape hC hc hc hc⟩

/-- Witness for C8: the fully aliased map (0,0,0) yields three identical
array members. -/
theorem channel_map_order_alias_witness :
    convert_one samplePath zeroVol noMeta 1 0 (0, 0, 0) gfId =
      .ok [("r.npy", write_npy (processChannel zeroVol 1 3 1 1 0 1 gfId 0)),
           ("g.npy", write_npy (processChannel zeroVol 1 3 1 1 0 1 gfId 0)),
           ("b.npy", write_npy (processChannel zeroVol 1 3 1 1 0 1 gfId 0)),
           ("meta.json", Member.json
             { vx_um := 1000000, vy_um := 1000000, vz_um := 1000000,
               ds := 1, sigma := 0, file := "sample.lsm", channel_map := [0, 0, 0] })] := by
  have h := (channel_map_order_alias samplePath zeroVol noMeta 1 0 gfId rfl
    (by norm_num)).2 0 (by norm_num)
  simpa [noMeta, samplePath, PyPath.name] using h


/-- Counterexample to C9 as stated: when the root path is itself a file,
`discover_files` returns it without any extension check, so the returned
path need not match the configured extension set. -/
theorem discover_files_ext_cex :
    discover_files ⟨["a.png"]⟩ ⟨true, [], []⟩ false false = [⟨["a.png"]⟩] ∧
    ([".lsm", ".LSM"] ++ (if false then [".tif", ".tiff", ".TIF", ".TIFF"] else [])).contains
      (pySuffix (PyPath.name ⟨["a.png"]⟩)) = false :=
  ⟨rfl, rfl⟩

/-- C9 (amended): a file root is returned as the single result regardless of
its extension; for a directory root the result is sorted by path, every
returned path's suffix is in the configured extension set (`.lsm`/`.LSM`,
widened by the tiff flag), and membership is exactly "regular file in the
pool selected by the recurse flag with matching suffix". -/
theorem discover_files_spec (root : PyPath) (fs : FsView) (tiff recursive : Bool) :
    (fs.rootIsFile = true → discover_files root fs tiff recursive = [root]) ∧
    (fs.rootIsFile = false →
      pathsSorted (discover_files root fs tiff recursive) ∧
      (∀ p ∈ discover_files root fs tiff recursive,
        ([".lsm", ".LSM"] ++
          (if tiff then [".tif", ".tiff", ".TIF", ".TIFF"] else [])).contains
            (pySuffix p.name) = true) ∧
      (∀ p, p ∈ discover_files root fs tiff recursive ↔
        ∃ b, (p, b) ∈ (if recursive then fs.descendants else fs.direct) ∧ b = true ∧
          ([".lsm", ".LSM"] ++
            (if tiff then [".tif", ".tiff", ".TIF", ".TIFF"] else [])).contains
              (pySuffix p.name) = true)) := by
  constructor
  · intro h
    simp only [discover_files]
    rw [if_pos h]
  · intro h
    have hne : ¬ fs.rootIsFile = true := by simp [h]
    have hrw : discover_files root fs tiff recursive =
        sortPaths (((if recursive then fs.descendants else fs.direct).filter fun e =>
          e.2 && (([".lsm", ".LSM"] ++
            (if tiff then [".tif", ".tiff", ".TIF", ".TIFF"] else [])).contains
              (pySuffix e.1.name))).map fun e => e.1) := by
      simp only [discover_files]
      rw [if_neg hne]
    have hchar : ∀ p, p ∈ discover_files root fs tiff recursive ↔
        ∃ b, (p, b) ∈ (if recursive then fs.descendants else fs.direct) ∧ b = true ∧
          ([".lsm", ".LSM"] ++
            (if tiff then [".tif", ".tiff", ".TIF", ".TIFF"] else [])).contains
              (pySuffix p.name) = true := by
      intro p
      rw [hrw, mem_sortPaths]
      simp only [List.mem_map, List.mem_filter, Bool.and_eq_true]
      constructor
      · rintro ⟨⟨p', b⟩, ⟨hmem, hb, hco⟩, rfl⟩
        exact ⟨b, hmem, hb, hco⟩
      · rintro ⟨b, hmem, hb, hco⟩
        exact ⟨(p, b), ⟨hmem, hb, hco⟩, rfl⟩
    refine ⟨?_, ?_, hchar⟩
    · rw [hrw]
      exact sorted_sortPaths _
    · intro p hp
      rcases (hchar p).1 hp with ⟨b, -, -, hco⟩
      exact hco

/-- Witness for the amended C9 on a concrete directory. -/
theorem discover_files_spec_witness :
    pathsSorted (discover_files ⟨["d"]⟩ dirFs false false) :=
  ((discover_files_spec ⟨["d"]⟩ dirFs false false).2 rfl).1

/-- C10: the startup validation of the map argument checks only that there
are exactly three non-negative integers; a map entry that is out of range
for a given file makes `convert_one` fail with the `IndexError` raised at
channel extraction (reporting the first offending index), and the batch
loop converts every file independently, so one file's failure leaves the
other files' outcomes unchanged. -/
theorem out_of_range_map_behavior :
    (∀ a b c : ℤ, 0 ≤ a → 0 ≤ b → 0 ≤ c → valid_map_arg [a, b, c] = true) ∧
    (∀ (p : PyPath) (vol : NpArray) (meta : LsmMeta) (ds : ℕ) (sigma : ℚ)
        (gf : ℚ → Slice2 → Slice2) (i0 i1 i2 Z C Y X : ℕ),
        vol.shape = [Z, C, Y, X] → 3 ≤ C →
      ((C ≤ i0 →
          convert_one p vol meta ds sigma (i0, i1, i2) gf = .error (.indexError i0 C)) ∧
       (i0 < C → C ≤ i1 →
          convert_one p vol meta ds sigma (i0, i1, i2) gf = .error (.indexError i1 C)) ∧
       (i0 < C → i1 < C → C ≤ i2 →
          convert_one p vol meta ds sigma (i0, i1, i2) gf = .error (.indexError i2 C)))) ∧
    (∀ files (ds : ℕ) (sigma : ℚ) (ch_map : ℕ × ℕ × ℕ) (gf : ℚ → Slice2 → Slice2) (i : ℕ),
      (batch_convert files ds sigma ch_map gf)[i]? =
        (files[i]?).map fun f => convert_one f.1 f.2.1 f.2.2 ds sigma ch_map gf) := by
  refine ⟨?_, ?_, ?_⟩
  · intro a b c ha hb hc
    simp [valid_map_arg, ha, hb, hc]
  · intro p vol meta ds sigma gf i0 i1 i2 Z C Y X hs hC
    refine ⟨?_, ?_, ?_⟩
    · intro h0
      simp only [convert_one, hs]
      rw [if_neg (by simp)]
      simp only [List.getD_cons_zero, List.getD_cons_succ]
      rw [if_neg (by omega)]
      simp only [clean]
      rw [if_neg (by omega)]
    · intro h0 h1
      simp only [convert_one, hs]
      rw [if_neg (by simp)]
      simp only [List.getD_cons_zero, List.getD_cons_succ]
      rw [if_neg (by omega)]
      simp only [clean]
      rw [if_pos h0, if_neg (by omega)]
    · intro h0 h1 h2
      simp only [convert_one, hs]
      rw [if_neg (by simp)]
      simp only [List.getD_cons_zero, List.getD_cons_succ]
      rw [if_neg (by omega)]
      simp only [clean]
      rw [if_pos h0, if_pos h1, if_neg (by omega)]
  · intro files ds sigma ch_map gf i
    simp [batch_convert]

/-- Witness for C10: map (0,1,5) passes startup validation, fails on a
3-channel file with the out-of-range index error, and the second file of a
batch is still converted after the first fails. -/
theorem out_of_range_map_behavior_witness :
    valid_map_arg [0, 1, 5] = true ∧
    convert_one samplePath zeroVol noMeta 1 0 (0, 1, 5) gfId = .error (.indexError 5 3) ∧
    (batch_convert [(samplePath, zeroVol, noMeta), (samplePath, zeroVol, noMeta)]
        1 0 (0, 1, 5) gfId)[1]? =
      some (convert_one samplePath zeroVol noMeta 1 0 (0, 1, 5) gfId) := by
  refine ⟨?_, ?_, ?_⟩
  · exact out_of_range_map_behavior.1 0 1 5 (by decide) (by decide) (by decide)
  · exact (out_of_range_map_behavior.2.1 samplePath zeroVol noMeta 1 0 gfId 0 1 5 1 3 1 1
      rfl (by norm_num)).2.2 (by norm_num) (by norm_num) (by norm_num)
  · have h := out_of_range_map_behavior.2.2
      [(samplePath, zeroVol, noMeta), (samplePath, zeroVol, noMeta)] 1 0 (0, 1, 5) gfId 1
    simpa using h

end LsmToNpz
